import Mathlib

/-!
Verification of the choice-list encoder/decoder core of `albert-app.py`.

Python strings are modelled as `List Char` (`PyStr`), Python values as the
inductive `PyVal`.  Fallible Python operations (`chr` out of range,
`.get` on a non-dict) are modelled with `Except`.  The two core functions
`format_choices` and `parse_formatted_choices_to_list` are translated
clause-by-clause from the source, together with the per-choice mapping
inside `df_to_powerpath_json`.
-/

/-- Python strings, modelled as lists of characters. -/
abbrev PyStr := List Char

/-- Python whitespace test, the set accepted by `str.isspace` (which also
governs `str.strip()` with no argument and the regex class `\s` for `str`
patterns): ASCII whitespace, the C1 separators, and the Unicode spaces. -/
def pyIsSpace (c : Char) : Bool :=
  c.toNat ∈ [9, 10, 11, 12, 13, 28, 29, 30, 31, 32, 133, 160,
    0x1680, 0x2000, 0x2001, 0x2002, 0x2003, 0x2004, 0x2005, 0x2006,
    0x2007, 0x2008, 0x2009, 0x200A, 0x2028, 0x2029, 0x202F, 0x205F, 0x3000]

/-- Left part of Python `str.strip()`: drop leading whitespace. -/
def pyStripL (s : PyStr) : PyStr := s.dropWhile pyIsSpace

/-- Right part of Python `str.strip()`: drop trailing whitespace. -/
def pyStripR (s : PyStr) : PyStr := (s.reverse.dropWhile pyIsSpace).reverse

/-- Python `str.strip()` with no argument. -/
def pyStrip (s : PyStr) : PyStr := pyStripR (pyStripL s)

/-- Python `str.split("\n\n")`: split on leftmost, non-overlapping
occurrences of the two-newline separator.  Like Python, it returns at
least one (possibly empty) part. -/
def pySplitNN : PyStr → List PyStr
  | [] => [[]]
  | [c] => [[c]]
  | c1 :: c2 :: rest =>
    if c1 = '\n' ∧ c2 = '\n' then
      [] :: pySplitNN rest
    else
      match pySplitNN (c2 :: rest) with
      | [] => [[c1]]
      | p :: ps => (c1 :: p) :: ps

/-- Whether a string contains the substring `"\n\n"`. -/
def hasNN : PyStr → Bool
  | [] => false
  | [_] => false
  | c1 :: c2 :: rest => (c1 = '\n' && c2 = '\n') || hasNN (c2 :: rest)

/-- The regex test `re.match(r"^[A-Z]\.\s", block)` from the decoder: one
uppercase ASCII letter, a literal dot, one whitespace character.  When it
matches, `match.end()` is always `3`. -/
def matchLetterDotSpace : PyStr → Bool
  | c1 :: c2 :: c3 :: _ =>
    (65 ≤ c1.toNat && c1.toNat ≤ 90) && c2 = '.' && pyIsSpace c3
  | _ => false

/-- The test `block_text.startswith("✓ ")` from the decoder. -/
def startsWithCheckmark : PyStr → Bool
  | c1 :: c2 :: _ => c1 = '✓' && c2 = ' '
  | _ => false

/-- Python runtime values, as far as this program manipulates them. -/
inductive PyVal where
  | none
  | bool (b : Bool)
  | int (n : Int)
  | str (s : PyStr)
  | list (xs : List PyVal)
  | dict (kvs : List (String × PyVal))

/-- Python exceptions that the modelled code can raise. -/
inductive PyErr where
  | valueError
  | attributeError
deriving DecidableEq

/-- Whether a value is a Python `str` (`isinstance(x, str)`). -/
def PyVal.isStr : PyVal → Bool
  | .str _ => true
  | _ => false

/-- Whether a value is a Python `list` (`isinstance(x, list)`). -/
def PyVal.isList : PyVal → Bool
  | .list _ => true
  | _ => false

/-- Whether a value is a Python `dict` (`isinstance(x, dict)`). -/
def PyVal.isDict : PyVal → Bool
  | .dict _ => true
  | _ => false

/-- Python truthiness, as used in `if` conditions and `and`. -/
def pyTruthy : PyVal → Bool
  | .none => false
  | .bool b => b
  | .int n => decide (n ≠ 0)
  | .str s => decide (s ≠ [])
  | .list [] => false
  | .list (_ :: _) => true
  | .dict [] => false
  | .dict (_ :: _) => true

/-- Python `d.get(key, default)` on a dict modelled as an association
list (dict keys are unique, so the first match is the binding). -/
def dictGet (kvs : List (String × PyVal)) (k : String) (dflt : PyVal) : PyVal :=
  match kvs with
  | [] => dflt
  | (k2, v) :: rest => if k2 = k then v else dictGet rest k dflt

/-- Python `chr(n)`: ok for `0 ≤ n ≤ 0x10FFFF`, `ValueError` otherwise.
Lone surrogates (which Python happily produces but Lean `Char` cannot
represent) are mapped by `Char.ofNat` to a placeholder; no claim ever
inspects a character at those code points. -/
def pyChr (n : Nat) : Except PyErr Char :=
  if n ≤ 0x10FFFF then .ok (Char.ofNat n) else .error .valueError

mutual
/-- Python `repr` of a value, as used by `str()` on non-strings.  Escaping
of quotes or special characters inside nested strings is not reproduced;
no claim exercises it (the program only renders plain-string fields). -/
def pyRepr : PyVal → PyStr
  | .none => "None".toList
  | .bool true => "True".toList
  | .bool false => "False".toList
  | .int n => (toString n).toList
  | .str s => Char.ofNat 39 :: (s ++ [Char.ofNat 39])
  | .list xs => '[' :: (pyReprList xs ++ [']'])
  | .dict kvs => '\x7b' :: (pyReprKVs kvs ++ ['\x7d'])

/-- Comma-joined `repr`s of list elements. -/
def pyReprList : List PyVal → PyStr
  | [] => []
  | [x] => pyRepr x
  | x :: xs => pyRepr x ++ ',' :: ' ' :: pyReprList xs

/-- Comma-joined `repr`s of dict items. -/
def pyReprKVs : List (String × PyVal) → PyStr
  | [] => []
  | [(k, v)] => Char.ofNat 39 :: (k.toList ++ Char.ofNat 39 :: ':' :: ' ' :: pyRepr v)
  | (k, v) :: rest =>
    (Char.ofNat 39 :: (k.toList ++ Char.ofNat 39 :: ':' :: ' ' :: pyRepr v))
      ++ ',' :: ' ' :: pyReprKVs rest
end

/-- Python `str(x)`, as performed by the f-string interpolation
`f"{prefix}{text}"` in `format_choices`. -/
def pyStrOf : PyVal → PyStr
  | .str s => s
  | v => pyRepr v

/-- One iteration body of the `format_choices` loop (source lines 146-148):
`prefix = "✓ " if choice.get('is_correct', False) else f"{chr(65+idx)}. "`,
then `f"{prefix}{text}"` with `text = choice.get('text', '')`.  `chr` is
only evaluated in the not-correct branch of the conditional expression. -/
def choiceBlock (idx : Nat) (kvs : List (String × PyVal)) : Except PyErr PyStr :=
  if pyTruthy (dictGet kvs "is_correct" (.bool false)) then
    .ok ('✓' :: ' ' :: pyStrOf (dictGet kvs "text" (.str [])))
  else
    match pyChr (65 + idx) with
    | .error e => .error e
    | .ok c => .ok (c :: '.' :: ' ' :: pyStrOf (dictGet kvs "text" (.str [])))

/-- The `for idx, choice in enumerate(choices)` loop of `format_choices`:
non-dict elements are skipped (but still advance `idx`); each dict
contributes its block followed by `"\n\n"`. -/
def fmtGo (idx : Nat) : List PyVal → Except PyErr PyStr
  | [] => .ok []
  | v :: rest =>
    match v with
    | .dict kvs =>
      match choiceBlock idx kvs with
      | .error e => .error e
      | .ok b =>
        match fmtGo (idx + 1) rest with
        | .error e => .error e
        | .ok r => .ok (b ++ '\n' :: '\n' :: r)
    | _ => fmtGo (idx + 1) rest

/-- `format_choices` (source lines 138-149): non-list input yields `""`;
otherwise the enumerate loop runs and the result is stripped. -/
def format_choices (choices : PyVal) : Except PyErr PyStr :=
  match choices with
  | .list xs =>
    match fmtGo 0 xs with
    | .error e => .error e
    | .ok s => .ok (pyStrip s)
  | _ => .ok []

/-- One parsed choice `{'text': ..., 'is_correct': ...}`. -/
structure Choice where
  text : PyStr
  is_correct : Bool
deriving DecidableEq

/-- Per-block classification of the decoder (source lines 169-187), in
priority order: checkmark prefix, letter-dot-whitespace prefix, verbatim
fallback. -/
def parseBlock (b : PyStr) : Choice :=
  if startsWithCheckmark b then
    { text := pyStrip (b.drop 2), is_correct := true }
  else if matchLetterDotSpace b then
    { text := pyStrip (b.drop 3), is_correct := false }
  else
    { text := b, is_correct := false }

/-- The loop body of the decoder for one raw block (source lines 164-187):
strip the block, skip it when it becomes empty, otherwise classify it. -/
def parseRaw (raw : PyStr) : Option Choice :=
  let b := pyStrip raw
  if b = [] then Option.none else some (parseBlock b)

/-- `parse_formatted_choices_to_list` (source lines 151-188): non-string
or blank input yields `[]`; otherwise the stripped input is split on
`"\n\n"`, each block is stripped, blocks that become empty are skipped,
and the rest are classified by `parseBlock`. -/
def parse_formatted_choices_to_list (formatted_text : PyVal) : List Choice :=
  match formatted_text with
  | .str s =>
    if pyStrip s = [] then []
    else (pySplitNN (pyStrip s)).filterMap parseRaw
  | _ => []

/-- A proper choice record, injected back into the dynamic value world. -/
def choiceToPy (c : Choice) : PyVal :=
  .dict [("text", .str c.text), ("is_correct", .bool c.is_correct)]

/-- A whole choice list as the Python value handed to `format_choices`. -/
def choicesToPy (cs : List Choice) : PyVal :=
  .list (cs.map choiceToPy)

/-- One record of the PowerPath `responses` array. -/
structure PPResponse where
  label : PyVal
  isCorrect : PyVal
  explanation : PyVal

/-- The per-question explanation normalization of `df_to_powerpath_json`
(source lines 254-256): `if pd.isna(qe) or str(qe).strip() == "": qe = None`
(scalar NA is `None` here; float NaN is outside the modelled values). -/
def normalizeQuestionExplanation (v : PyVal) : PyVal :=
  match v with
  | .none => .none
  | w => if pyStrip (pyStrOf w) = [] then .none else w

/-- The per-choice body of the `df_to_powerpath_json` loop (source lines
262-271).  A non-dict choice raises `AttributeError` at `choice.get`. -/
def powerpathResponse (question_explanation : PyVal) (choice : PyVal) :
    Except PyErr PPResponse :=
  match choice with
  | .dict kvs =>
    .ok { label := dictGet kvs "text" (.str [])
        , isCorrect := dictGet kvs "is_correct" (.bool false)
        , explanation :=
            if pyTruthy (dictGet kvs "is_correct" (.bool false))
                && pyTruthy question_explanation then
              question_explanation
            else .none }
  | _ => .error .attributeError

/-- The `for choice in original_choices` loop of `df_to_powerpath_json`,
collecting the `responses` list. -/
def powerpathResponses (question_explanation : PyVal)
    (original_choices : List PyVal) : Except PyErr (List PPResponse) :=
  original_choices.mapM (powerpathResponse question_explanation)

/-- The block emitted by `format_choices` for the choice at absolute
position `idx`. -/
def renderBlock (idx : Nat) (c : Choice) : PyStr :=
  (if c.is_correct then ['✓', ' '] else [Char.ofNat (65 + idx), '.', ' ']) ++ c.text

/-- The whole accumulated `formatted` string (before the final strip),
starting at absolute position `idx`. -/
def renderAll (idx : Nat) : List Choice → PyStr
  | [] => []
  | c :: cs => renderBlock idx c ++ '\n' :: '\n' :: renderAll (idx + 1) cs

/-- The list of blocks, starting at absolute position `idx`. -/
def blocksOf (idx : Nat) : List Choice → List PyStr
  | [] => []
  | c :: cs => renderBlock idx c :: blocksOf (idx + 1) cs

/-- Blocks joined by the `"\n\n"` separator, with no trailing separator. -/
def interNN : List PyStr → PyStr
  | [] => []
  | [b] => b
  | b :: bs => b ++ '\n' :: '\n' :: interNN bs

/-- A text that survives the display round-trip: non-empty, already
stripped, and free of the block separator. -/
def GoodText (t : PyStr) : Prop := t ≠ [] ∧ pyStrip t = t ∧ hasNN t = false

instance (t : PyStr) : Decidable (GoodText t) := by unfold GoodText; infer_instance

/-- Decode, re-encode the decoded list, and decode again (the composite
`decode(encode(decode(s)))` of the round-trip contract, with the encoder's
possible `chr` failure made explicit). -/
def decodeEncodeDecode (s : PyStr) : Except PyErr (List Choice) :=
  match format_choices (choicesToPy (parse_formatted_choices_to_list (.str s))) with
  | .error e => .error e
  | .ok t => .ok (parse_formatted_choices_to_list (.str t))

/-! ### Facts about `pyStrip` -/

lemma pyStripL_cons_of_not {c : Char} {s : PyStr} (h : pyIsSpace c = false) :
    pyStripL (c :: s) = c :: s := by
  simp [pyStripL, List.dropWhile_cons, h]

lemma pyStripR_eq_self {s : PyStr}
    (h : ∀ a, s.getLast? = some a → pyIsSpace a = false) : pyStripR s = s := by
  unfold pyStripR
  cases hs : s.reverse with
  | nil =>
    have h0 : s = [] := List.reverse_eq_nil_iff.mp hs
    simp [h0]
  | cons a t =>
    have ha : s.getLast? = some a := by
      rw [← List.head?_reverse, hs]; rfl
    rw [List.dropWhile_cons, if_neg (by simp [h a ha])]
    rw [← hs, List.reverse_reverse]

lemma pyStrip_eq_self {s : PyStr}
    (h1 : ∀ a, s.head? = some a → pyIsSpace a = false)
    (h2 : ∀ a, s.getLast? = some a → pyIsSpace a = false) : pyStrip s = s := by
  cases s with
  | nil => rfl
  | cons c t =>
    have hL : pyStripL (c :: t) = c :: t := pyStripL_cons_of_not (h1 c rfl)
    rw [pyStrip, hL, pyStripR_eq_self h2]

lemma pyStripL_suffix (s : PyStr) : pyStripL s <:+ s := List.dropWhile_suffix _

lemma pyStripR_isPre (s : PyStr) : pyStripR s <+: s := by
  rw [← List.reverse_suffix]
  unfold pyStripR
  rw [List.reverse_reverse]
  exact List.dropWhile_suffix _

lemma dropWhile_head_not {p : Char → Bool} :
    ∀ {s a r}, List.dropWhile p s = a :: r → p a = false := by
  intro s
  induction s with
  | nil => intro a r h; cases h
  | cons c t ih =>
    intro a r h
    rw [List.dropWhile_cons] at h
    by_cases hc : p c = true
    · rw [if_pos hc] at h; exact ih h
    · rw [if_neg hc] at h
      have hca : c = a := by injection h
      subst hca
      simpa using hc

lemma pyStrip_isPart (s : PyStr) : pyStrip s <:+: s :=
  ((pyStripR_isPre (pyStripL s)).isInfix).trans (pyStripL_suffix s).isInfix

lemma pyStripL_head_not_space {s : PyStr} {a : Char} {r : PyStr}
    (h : pyStripL s = a :: r) : pyIsSpace a = false :=
  dropWhile_head_not (by simpa [pyStripL] using h)

lemma pyStripR_getLast_not_space {s : PyStr} {a : Char}
    (h : (pyStripR s).getLast? = some a) : pyIsSpace a = false := by
  unfold pyStripR at h
  rw [List.getLast?_reverse] at h
  cases hd : s.reverse.dropWhile pyIsSpace with
  | nil => rw [hd] at h; cases h
  | cons b r =>
    rw [hd] at h
    have hb : b = a := by injection h
    subst hb
    exact dropWhile_head_not hd

lemma pyStrip_head_not_space {s : PyStr} {a : Char}
    (h : (pyStrip s).head? = some a) : pyIsSpace a = false := by
  unfold pyStrip at h
  obtain ⟨u, hu⟩ := pyStripR_isPre (pyStripL s)
  cases hv : pyStripR (pyStripL s) with
  | nil => rw [hv] at h; cases h
  | cons b r =>
    rw [hv] at h
    have hb : b = a := by injection h
    subst hb
    rw [hv] at hu
    have hL : pyStripL s = b :: (r ++ u) := by rw [← hu]; simp
    exact pyStripL_head_not_space hL

lemma pyStrip_getLast_not_space {s : PyStr} {a : Char}
    (h : (pyStrip s).getLast? = some a) : pyIsSpace a = false :=
  pyStripR_getLast_not_space h

lemma pyStrip_idem (s : PyStr) : pyStrip (pyStrip s) = pyStrip s :=
  pyStrip_eq_self (fun _ h => pyStrip_head_not_space h)
    (fun _ h => pyStrip_getLast_not_space h)

lemma trimStable_head_not_space {s : PyStr} {a : Char} (hs : pyStrip s = s)
    (h : s.head? = some a) : pyIsSpace a = false :=
  pyStrip_head_not_space (by rw [hs]; exact h)

lemma trimStable_getLast_not_space {s : PyStr} {a : Char} (hs : pyStrip s = s)
    (h : s.getLast? = some a) : pyIsSpace a = false :=
  pyStrip_getLast_not_space (by rw [hs]; exact h)

lemma pyStrip_ne_nil {s : PyStr} {a : Char} (ha : a ∈ s)
    (hn : pyIsSpace a = false) : pyStrip s ≠ [] := by
  intro h
  unfold pyStrip pyStripR at h
  have h2 : (pyStripL s).reverse.dropWhile pyIsSpace = [] :=
    List.reverse_eq_nil_iff.mp (by simpa using congrArg List.reverse h)
  have hall : ∀ x ∈ pyStripL s, pyIsSpace x = true := by
    intro x hx
    exact List.dropWhile_eq_nil_iff.mp h2 x (by simpa using hx)
  have : ∀ x ∈ s, pyIsSpace x = true := by
    intro x hx
    rw [← List.takeWhile_append_dropWhile pyIsSpace s] at hx
    rcases List.mem_append.mp hx with h | h
    · exact List.mem_takeWhile_imp h
    · exact hall x h
  rw [this a ha] at hn; cases hn

/-! ### Facts about `hasNN` and `pySplitNN` -/

lemma hasNN_cons_cons (a b : Char) (t : PyStr) :
    hasNN (a :: b :: t) = ((a = '\n' && b = '\n') || hasNN (b :: t)) := rfl

lemma hasNN_cons_of_ne {c : Char} (hc : c ≠ '\n') (t : PyStr) :
    hasNN (c :: t) = hasNN t := by
  cases t with
  | nil => rfl
  | cons d r => simp [hasNN_cons_cons, hc]

lemma hasNN_eq_true_iff :
    ∀ {s : PyStr}, hasNN s = true ↔ ∃ u v, s = u ++ '\n' :: '\n' :: v := by
  intro s
  constructor
  · intro h
    induction s with
    | nil => cases h
    | cons c t ih =>
      cases t with
      | nil => cases h
      | cons d r =>
        rw [hasNN_cons_cons] at h
        rcases Bool.or_eq_true_iff.mp h with h1 | h1
        · obtain ⟨hc, hd⟩ := Bool.and_eq_true_iff.mp h1
          refine ⟨[], r, ?_⟩
          simp at hc hd
          simp [hc, hd]
        · obtain ⟨u, v, huv⟩ := ih h1
          exact ⟨c :: u, v, by simp [huv]⟩
  · rintro ⟨u, v, rfl⟩
    induction u with
    | nil => simp only [List.nil_append, hasNN_cons_cons]; simp
    | cons c u ih =>
      cases hu : u ++ '\n' :: '\n' :: v with
      | nil => simp at hu
      | cons d r =>
        rw [List.cons_append, hu, hasNN_cons_cons, ← hu, ih]
        simp

lemma hasNN_false_mono {s t : PyStr} (h : s <:+: t) (ht : hasNN t = false) :
    hasNN s = false := by
  by_contra hs
  have hs2 : hasNN s = true := by
    cases h2 : hasNN s with
    | false => exact absurd h2 hs
    | true => rfl
  obtain ⟨u, v, rfl⟩ := hasNN_eq_true_iff.mp hs2
  obtain ⟨x, y, rfl⟩ := h
  have : hasNN (x ++ (u ++ '\n' :: '\n' :: v) ++ y) = true :=
    hasNN_eq_true_iff.mpr ⟨x ++ u, v ++ y, by simp⟩
  rw [this] at ht; cases ht

lemma hasNN_drop {s : PyStr} (n : Nat) (h : hasNN s = false) :
    hasNN (s.drop n) = false :=
  hasNN_false_mono (List.drop_suffix n s).isInfix h

lemma hasNN_pyStrip {s : PyStr} (h : hasNN s = false) :
    hasNN (pyStrip s) = false :=
  hasNN_false_mono (pyStrip_isPart s) h

lemma pySplitNN_ne_nil : ∀ (s : PyStr), pySplitNN s ≠ [] := by
  intro s
  match s with
  | [] => simp [pySplitNN]
  | [c] => simp [pySplitNN]
  | c1 :: c2 :: rest =>
    simp only [pySplitNN]
    split
    · simp
    · split <;> simp

lemma pySplitNN_head_shape (c : Char) (r : PyStr) :
    (∃ ps, pySplitNN (c :: r) = [] :: ps) ∨
      (∃ q ps, pySplitNN (c :: r) = (c :: q) :: ps) := by
  match r with
  | [] => right; exact ⟨[], [], rfl⟩
  | c2 :: rest =>
    simp only [pySplitNN]
    split
    · left; exact ⟨_, rfl⟩
    · rcases hq : pySplitNN (c2 :: rest) with _ | ⟨q, qs⟩
      · exact absurd hq (pySplitNN_ne_nil _)
      · right; exact ⟨q, qs, rfl⟩

lemma pySplitNN_parts_aux :
    ∀ (n : Nat) (s p : PyStr), s.length ≤ n → p ∈ pySplitNN s → hasNN p = false := by
  intro n
  induction n with
  | zero =>
    intro s p hl hp
    cases s with
    | nil => simp [pySplitNN] at hp; simp [hp, hasNN]
    | cons c r => simp at hl
  | succ n ih =>
    intro s p hl hp
    match s with
    | [] => simp [pySplitNN] at hp; simp [hp, hasNN]
    | [c] => simp [pySplitNN] at hp; simp [hp, hasNN]
    | c1 :: c2 :: rest =>
      simp only [pySplitNN] at hp
      simp only [List.length_cons] at hl
      by_cases hcc : c1 = '\n' ∧ c2 = '\n'
      · rw [if_pos hcc] at hp
        rcases List.mem_cons.mp hp with h | h
        · simp [h, hasNN]
        · exact ih rest p (by omega) h
      · rw [if_neg hcc] at hp
        rcases hq : pySplitNN (c2 :: rest) with _ | ⟨q, qs⟩
        · exact absurd hq (pySplitNN_ne_nil _)
        · rw [hq] at hp
          rcases List.mem_cons.mp hp with h | h
          · subst h
            have hqn : hasNN q = false :=
              ih (c2 :: rest) q (by simp; omega) (by rw [hq]; exact List.mem_cons_self _ _)
            rcases pySplitNN_head_shape c2 rest with ⟨ps, hps⟩ | ⟨q2, ps, hps⟩
            · rw [hq] at hps
              have hq0 : q = [] := (List.cons.inj hps).1
              simp [hq0, hasNN]
            · rw [hq] at hps
              have hq0 : q = c2 :: q2 := (List.cons.inj hps).1
              subst hq0
              rw [hasNN_cons_cons, hqn]
              simp
              intro h1
              exact fun h2 => hcc ⟨h1, h2⟩
          · exact ih (c2 :: rest) p (by simp; omega)
              (by rw [hq]; exact List.mem_cons_of_mem _ h)

lemma pySplitNN_parts {s p : PyStr} (hp : p ∈ pySplitNN s) : hasNN p = false :=
  pySplitNN_parts_aux s.length s p le_rfl hp

lemma pySplitNN_of_noNN : ∀ {s : PyStr}, hasNN s = false → pySplitNN s = [s] := by
  intro s
  induction s with
  | nil => intro h; rfl
  | cons c t ih =>
    intro h
    cases t with
    | nil => rfl
    | cons d r =>
      rw [hasNN_cons_cons] at h
      have h1 : (c = '\n' && d = '\n') = false := by
        cases hx : (c = '\n' && decide (d = '\n')) with
        | false => rfl
        | true => rw [hx] at h; simp at h
      have h2 : hasNN (d :: r) = false := by
        cases hx : hasNN (d :: r) with
        | false => rfl
        | true => rw [hx] at h; simp at h
      simp only [pySplitNN]
      rw [if_neg (fun hx => by rw [hx.1, hx.2] at h1; simp at h1)]
      rw [ih h2]

lemma pySplitNN_append {b : PyStr} (rest : PyStr) (hb : hasNN b = false)
    (hlast : ∀ a, b.getLast? = some a → a ≠ '\n') :
    pySplitNN (b ++ '\n' :: '\n' :: rest) = b :: pySplitNN rest := by
  induction b with
  | nil => simp [pySplitNN]
  | cons a t ih =>
    cases t with
    | nil =>
      have ha : a ≠ '\n' := hlast a rfl
      simp only [List.cons_append, List.nil_append, pySplitNN]
      rw [if_neg (by simp [ha])]
      rcases hq : pySplitNN ('\n' :: '\n' :: rest) with _ | ⟨q, qs⟩
      · exact absurd hq (pySplitNN_ne_nil _)
      · have : pySplitNN ('\n' :: '\n' :: rest) = [] :: pySplitNN rest := by
          simp [pySplitNN]
        rw [this] at hq
        have hq0 : q = [] := ((List.cons.inj hq).1).symm
        have hqs : qs = pySplitNN rest := ((List.cons.inj hq).2).symm
        subst hq0; subst hqs
        rfl
    | cons b2 t2 =>
      rw [hasNN_cons_cons] at hb
      have h1 : ¬(a = '\n' ∧ b2 = '\n') := by
        intro ⟨x1, x2⟩
        rw [x1, x2] at hb; simp at hb
      have h2 : hasNN (b2 :: t2) = false := by
        cases hx : hasNN (b2 :: t2) with
        | false => rfl
        | true => rw [hx] at hb; simp at hb
      have h3 : ∀ x, (b2 :: t2).getLast? = some x → x ≠ '\n' := by
        intro x hx
        exact hlast x (by rw [← hx]; exact (List.getLast?_cons_cons).symm ▸ rfl)
      have ihr := ih h2 h3
      simp only [List.cons_append] at ihr ⊢
      simp only [pySplitNN]
      rw [if_neg h1]
      rw [ihr]

/-! ### Facts about the rendered display text of a proper choice list -/

lemma goodText_getLast {t : PyStr} (h : GoodText t) {a : Char}
    (ha : t.getLast? = some a) : pyIsSpace a = false ∧ a ≠ '\n' := by
  have h1 := trimStable_getLast_not_space h.2.1 ha
  refine ⟨h1, fun hnl => ?_⟩
  rw [hnl] at h1
  simp [pyIsSpace] at h1

lemma letterChar_facts : ∀ i < 26, Char.ofNat (65 + i) ≠ '✓' ∧
    65 ≤ (Char.ofNat (65 + i)).toNat ∧ (Char.ofNat (65 + i)).toNat ≤ 90 ∧
    pyIsSpace (Char.ofNat (65 + i)) = false ∧ Char.ofNat (65 + i) ≠ '\n' := by
  decide

lemma choiceBlock_toPy (i : Nat) (c : Choice)
    (h : c.is_correct = false → 65 + i ≤ 0x10FFFF) :
    choiceBlock i [("text", PyVal.str c.text), ("is_correct", PyVal.bool c.is_correct)]
      = .ok (renderBlock i c) := by
  cases hc : c.is_correct with
  | true => simp [choiceBlock, dictGet, pyTruthy, pyStrOf, renderBlock, hc]
  | false =>
    have h2 := h hc
    simp [choiceBlock, dictGet, pyTruthy, pyStrOf, renderBlock, hc, pyChr, h2]

lemma fmtGo_toPy : ∀ (cs : List Choice) (i : Nat),
    (∀ j (hj : j < cs.length), (cs.get ⟨j, hj⟩).is_correct = false → 65 + i + j ≤ 0x10FFFF) →
    fmtGo i (cs.map choiceToPy) = .ok (renderAll i cs) := by
  intro cs
  induction cs with
  | nil => intro i h; rfl
  | cons c cs ih =>
    intro i h
    have h0 : c.is_correct = false → 65 + i ≤ 0x10FFFF := by
      intro hc
      have := h 0 (by simp) hc
      omega
    have hrest : ∀ j (hj : j < cs.length),
        (cs.get ⟨j, hj⟩).is_correct = false → 65 + (i + 1) + j ≤ 0x10FFFF := by
      intro j hj hc
      have := h (j + 1) (by simp; omega) hc
      omega
    simp only [List.map_cons, choiceToPy, fmtGo]
    rw [choiceBlock_toPy i c h0, ih (i + 1) hrest]
    rfl

lemma format_choices_toPy (cs : List Choice)
    (h : ∀ j (hj : j < cs.length), (cs.get ⟨j, hj⟩).is_correct = false → 65 + j ≤ 0x10FFFF) :
    format_choices (choicesToPy cs) = .ok (pyStrip (renderAll 0 cs)) := by
  simp only [format_choices, choicesToPy]
  rw [fmtGo_toPy cs 0 (by intro j hj hc; exact h j hj hc)]

lemma renderAll_eq_interNN : ∀ (cs : List Choice) (i : Nat), cs ≠ [] →
    renderAll i cs = interNN (blocksOf i cs) ++ ['\n', '\n'] := by
  intro cs
  induction cs with
  | nil => intro i h; exact absurd rfl h
  | cons c cs ih =>
    intro i h
    cases cs with
    | nil => simp [renderAll, interNN, blocksOf]
    | cons c2 cs2 =>
      rw [renderAll, ih (i + 1) (by simp)]
      simp [interNN, blocksOf, List.append_assoc]

lemma renderBlock_ne_nil (i : Nat) (c : Choice) : renderBlock i c ≠ [] := by
  cases hc : c.is_correct <;> simp [renderBlock, hc]

lemma renderBlock_head (i : Nat) (c : Choice) (hi : c.is_correct = false → i < 26) :
    ∀ a, (renderBlock i c).head? = some a → pyIsSpace a = false := by
  intro a ha
  cases hc : c.is_correct with
  | true =>
    rw [renderBlock, hc] at ha
    simp at ha
    rw [← ha]
    decide
  | false =>
    obtain ⟨-, -, -, hsp, -⟩ := letterChar_facts i (hi hc)
    rw [renderBlock, hc] at ha
    simp at ha
    rw [← ha]
    exact hsp

lemma renderBlock_getLast (i : Nat) (c : Choice) (ht : c.text ≠ []) :
    (renderBlock i c).getLast? = c.text.getLast? := by
  rw [renderBlock, List.getLast?_append]
  cases hl : c.text.getLast? with
  | none => exact absurd (List.getLast?_eq_none_iff.mp hl) ht
  | some a => simp

lemma renderBlock_noNN (i : Nat) (c : Choice) (hi : c.is_correct = false → i < 26)
    (h : hasNN c.text = false) : hasNN (renderBlock i c) = false := by
  cases hc : c.is_correct with
  | true =>
    rw [renderBlock, hc]
    simp only [if_pos, List.cons_append, List.nil_append]
    rw [hasNN_cons_of_ne (by decide), hasNN_cons_of_ne (by decide)]
    exact h
  | false =>
    obtain ⟨-, -, -, -, hnl⟩ := letterChar_facts i (hi hc)
    rw [renderBlock, hc]
    simp only [Bool.false_eq_true, if_false, List.cons_append, List.nil_append]
    rw [hasNN_cons_of_ne hnl, hasNN_cons_of_ne (by decide), hasNN_cons_of_ne (by decide)]
    exact h

lemma renderBlock_trimStable (i : Nat) (c : Choice) (hi : c.is_correct = false → i < 26)
    (hg : GoodText c.text) : pyStrip (renderBlock i c) = renderBlock i c := by
  refine pyStrip_eq_self (fun a ha => renderBlock_head i c hi a ha) (fun a ha => ?_)
  rw [renderBlock_getLast i c hg.1] at ha
  exact (goodText_getLast hg ha).1

lemma interNN_head (i : Nat) (c : Choice) (cs : List Choice) :
    (interNN (blocksOf i (c :: cs))).head? = (renderBlock i c).head? := by
  cases cs with
  | nil => rfl
  | cons c2 cs2 =>
    simp only [blocksOf, interNN]
    rw [List.head?_append_of_ne_nil _ (renderBlock_ne_nil i c)]

lemma interNN_ne_nil (i : Nat) (c : Choice) (cs : List Choice) :
    interNN (blocksOf i (c :: cs)) ≠ [] := by
  intro h
  have hh := interNN_head i c cs
  rw [h] at hh
  cases hb : renderBlock i c with
  | nil => exact renderBlock_ne_nil i c hb
  | cons x r => rw [hb] at hh; cases hh

lemma interNN_getLast_not_space : ∀ (cs : List Choice) (i : Nat),
    (∀ c ∈ cs, GoodText c.text) →
    ∀ a, (interNN (blocksOf i cs)).getLast? = some a → pyIsSpace a = false := by
  intro cs
  induction cs with
  | nil => intro i hg a ha; cases ha
  | cons c cs ih =>
    intro i hg a ha
    cases cs with
    | nil =>
      simp only [blocksOf, interNN] at ha
      rw [renderBlock_getLast i c (hg c (by simp)).1] at ha
      exact (goodText_getLast (hg c (by simp)) ha).1
    | cons c2 cs2 =>
      simp only [blocksOf, interNN] at ha
      rcases hu : interNN (blocksOf (i + 1) (c2 :: cs2)) with _ | ⟨y, w⟩
      · exact absurd hu (interNN_ne_nil (i + 1) c2 cs2)
      · rw [show blocksOf (i + 1) (c2 :: cs2)
            = renderBlock (i + 1) c2 :: blocksOf (i + 2) cs2 from rfl] at hu
        rw [hu] at ha
        rw [List.getLast?_append, List.getLast?_cons_cons, List.getLast?_cons_cons] at ha
        have hz : ∃ z, (y :: w).getLast? = some z := by
          cases hm : (y :: w).getLast? with
          | none => exact absurd (List.getLast?_eq_none_iff.mp hm) (by simp)
          | some z => exact ⟨z, rfl⟩
        obtain ⟨z, hm⟩ := hz
        rw [hm] at ha
        simp only [Option.or_some] at ha
        have hza : z = a := by injection ha
        subst hza
        refine ih (i + 1) (fun x hx => hg x (by simp [hx])) z ?_
        rw [show interNN (blocksOf (i + 1) (c2 :: cs2)) = y :: w from by
          rw [show blocksOf (i + 1) (c2 :: cs2)
              = renderBlock (i + 1) c2 :: blocksOf (i + 2) cs2 from rfl, hu]]
        exact hm

lemma pyStrip_append_nn {t : PyStr} (h1 : ∀ a, t.head? = some a → pyIsSpace a = false)
    (h2 : ∀ a, t.getLast? = some a → pyIsSpace a = false) (hne : t ≠ []) :
    pyStrip (t ++ ['\n', '\n']) = t := by
  cases t with
  | nil => exact absurd rfl hne
  | cons c r =>
    rw [pyStrip, List.cons_append, pyStripL_cons_of_not (h1 c rfl), ← List.cons_append]
    unfold pyStripR
    rw [List.reverse_append]
    rw [show (['\n', '\n'] : PyStr).reverse = ['\n', '\n'] from rfl]
    rw [show (['\n', '\n'] : PyStr) ++ (c :: r).reverse
        = '\n' :: '\n' :: (c :: r).reverse from rfl]
    rw [List.dropWhile_cons, if_pos (by decide), List.dropWhile_cons, if_pos (by decide)]
    cases hrev : (c :: r).reverse with
    | nil => exact absurd (List.reverse_eq_nil_iff.mp hrev) (by simp)
    | cons b w =>
      have hb : (c :: r).getLast? = some b := by
        rw [← List.head?_reverse, hrev]; rfl
      rw [List.dropWhile_cons, if_neg (by simp [h2 b hb])]
      rw [← hrev, List.reverse_reverse]

lemma pySplitNN_interNN : ∀ (cs : List Choice) (i : Nat), cs ≠ [] →
    (∀ c ∈ cs, GoodText c.text) →
    (∀ j (hj : j < cs.length), (cs.get ⟨j, hj⟩).is_correct = false → i + j < 26) →
    pySplitNN (interNN (blocksOf i cs)) = blocksOf i cs := by
  intro cs
  induction cs with
  | nil => intro i h; exact absurd rfl h
  | cons c cs ih =>
    intro i hne hg hp
    have hi0 : c.is_correct = false → i < 26 := by
      intro hc
      have := hp 0 (by simp) hc
      omega
    have hnn : hasNN (renderBlock i c) = false :=
      renderBlock_noNN i c hi0 (hg c (by simp)).2.2
    cases cs with
    | nil =>
      simp only [blocksOf, interNN]
      exact pySplitNN_of_noNN hnn
    | cons c2 cs2 =>
      simp only [blocksOf, interNN]
      rw [show ('\n' :: '\n' :: interNN (renderBlock (i + 1) c2 :: blocksOf (i + 2) cs2) : PyStr)
          = '\n' :: '\n' :: interNN (blocksOf (i + 1) (c2 :: cs2)) from rfl]
      rw [pySplitNN_append _ hnn (fun a ha => by
        rw [renderBlock_getLast i c (hg c (by simp)).1] at ha
        exact (goodText_getLast (hg c (by simp)) ha).2)]
      rw [ih (i + 1) (by simp) (fun x hx => hg x (by simp [hx]))
        (fun j hj hc => by have := hp (j + 1) (by simp at hj ⊢; omega) hc; omega)]
      rfl

lemma parseBlock_checkmark (t : PyStr) :
    parseBlock ('✓' :: ' ' :: t) = ⟨pyStrip t, true⟩ := by
  rw [parseBlock, if_pos (by simp [startsWithCheckmark])]
  rfl

lemma parseBlock_letter (i : Nat) (hi : i < 26) (t : PyStr) :
    parseBlock (Char.ofNat (65 + i) :: '.' :: ' ' :: t) = ⟨pyStrip t, false⟩ := by
  obtain ⟨-, h65, h90, -, -⟩ := letterChar_facts i hi
  rw [parseBlock, if_neg (by simp [startsWithCheckmark]),
    if_pos (by simp [matchLetterDotSpace, h65, h90]; decide)]
  rfl

lemma parseBlock_renderBlock (i : Nat) (c : Choice) (hi : c.is_correct = false → i < 26)
    (hst : pyStrip c.text = c.text) : parseBlock (renderBlock i c) = c := by
  obtain ⟨t, b⟩ := c
  cases b with
  | true =>
    rw [show renderBlock i ⟨t, true⟩ = '✓' :: ' ' :: t from rfl, parseBlock_checkmark]
    simp only at hst
    rw [hst]
  | false =>
    rw [show renderBlock i ⟨t, false⟩ = Char.ofNat (65 + i) :: '.' :: ' ' :: t from rfl,
      parseBlock_letter i (hi rfl) t]
    simp only at hst
    rw [hst]

lemma parseRaw_renderBlock (i : Nat) (c : Choice) (hi : c.is_correct = false → i < 26)
    (hg : GoodText c.text) : parseRaw (renderBlock i c) = some c := by
  simp only [parseRaw, renderBlock_trimStable i c hi hg]
  rw [if_neg (renderBlock_ne_nil i c), parseBlock_renderBlock i c hi hg.2.1]

lemma filterMap_parseRaw : ∀ (cs : List Choice) (i : Nat),
    (∀ c ∈ cs, GoodText c.text) →
    (∀ j (hj : j < cs.length), (cs.get ⟨j, hj⟩).is_correct = false → i + j < 26) →
    (blocksOf i cs).filterMap parseRaw = cs := by
  intro cs
  induction cs with
  | nil => intro i hg hp; rfl
  | cons c cs ih =>
    intro i hg hp
    rw [blocksOf, List.filterMap_cons]
    rw [parseRaw_renderBlock i c (fun hc => by have := hp 0 (by simp) hc; omega)
      (hg c (by simp))]
    rw [ih (i + 1) (fun x hx => hg x (by simp [hx]))
      (fun j hj hc => by have := hp (j + 1) (by simp; omega) hc; omega)]

lemma parse_renderAll (cs : List Choice)
    (hg : ∀ c ∈ cs, GoodText c.text)
    (hp : ∀ j (hj : j < cs.length), (cs.get ⟨j, hj⟩).is_correct = false → j < 26) :
    parse_formatted_choices_to_list (.str (pyStrip (renderAll 0 cs))) = cs := by
  cases cs with
  | nil => rfl
  | cons c0 cs0 =>
    have hhead : ∀ a, (interNN (blocksOf 0 (c0 :: cs0))).head? = some a →
        pyIsSpace a = false := by
      intro a ha
      rw [interNN_head 0 c0 cs0] at ha
      exact renderBlock_head 0 c0 (fun hc => hp 0 (by simp) hc) a ha
    have hlast := interNN_getLast_not_space (c0 :: cs0) 0 hg
    have hstrip : pyStrip (renderAll 0 (c0 :: cs0)) = interNN (blocksOf 0 (c0 :: cs0)) := by
      rw [renderAll_eq_interNN _ 0 (by simp)]
      exact pyStrip_append_nn hhead hlast (interNN_ne_nil 0 c0 cs0)
    rw [hstrip]
    have hstable : pyStrip (interNN (blocksOf 0 (c0 :: cs0)))
        = interNN (blocksOf 0 (c0 :: cs0)) := pyStrip_eq_self hhead hlast
    simp only [parse_formatted_choices_to_list]
    rw [hstable, if_neg (interNN_ne_nil 0 c0 cs0)]
    rw [pySplitNN_interNN (c0 :: cs0) 0 (by simp) hg
      (fun j hj hc => by have := hp j hj hc; omega)]
    exact filterMap_parseRaw (c0 :: cs0) 0 hg (fun j hj hc => by have := hp j hj hc; omega)

lemma roundtrip_core (cs : List Choice)
    (hg : ∀ c ∈ cs, GoodText c.text)
    (hp : ∀ j (hj : j < cs.length), (cs.get ⟨j, hj⟩).is_correct = false → j < 26) :
    format_choices (choicesToPy cs) = .ok (pyStrip (renderAll 0 cs)) ∧
      parse_formatted_choices_to_list (.str (pyStrip (renderAll 0 cs))) = cs :=
  ⟨format_choices_toPy cs (fun j hj hc => by have := hp j hj hc; omega),
   parse_renderAll cs hg hp⟩

/-! ### The invariant of decoder output texts -/

lemma startsWithCheckmark_shape {b : PyStr} (h : startsWithCheckmark b = true) :
    ∃ t, b = '✓' :: ' ' :: t := by
  match b with
  | [] => cases h
  | [c] => cases h
  | c1 :: c2 :: t =>
    simp only [startsWithCheckmark, Bool.and_eq_true, decide_eq_true_eq] at h
    exact ⟨t, by rw [h.1, h.2]⟩

lemma matchLetterDotSpace_shape {b : PyStr} (h : matchLetterDotSpace b = true) :
    ∃ c1 c3 t, b = c1 :: '.' :: c3 :: t ∧ pyIsSpace c3 = true := by
  match b with
  | [] => cases h
  | [c] => cases h
  | [c, d] => cases h
  | c1 :: c2 :: c3 :: t =>
    simp only [matchLetterDotSpace, Bool.and_eq_true, decide_eq_true_eq] at h
    exact ⟨c1, c3, t, by rw [h.1.2], h.2⟩

lemma pyStrip_ne_nil_of_getLast {t : PyStr} {z : Char} (hz : t.getLast? = some z)
    (hns : pyIsSpace z = false) : pyStrip t ≠ [] := by
  have hmem : z ∈ t := by
    cases t with
    | nil => cases hz
    | cons y w =>
      have h1 := List.getLast?_eq_getLast (y :: w) (by simp)
      rw [h1] at hz
      have h2 : (y :: w).getLast (by simp) = z := by injection hz
      rw [← h2]
      exact List.getLast_mem _
  exact pyStrip_ne_nil hmem hns

lemma parseBlock_good {b : PyStr} (hne : b ≠ []) (hst : pyStrip b = b)
    (hnn : hasNN b = false) : GoodText (parseBlock b).text := by
  by_cases h1 : startsWithCheckmark b = true
  · obtain ⟨t, rfl⟩ := startsWithCheckmark_shape h1
    rw [parseBlock, if_pos h1]
    show GoodText (pyStrip (List.drop 2 ('✓' :: ' ' :: t)))
    rw [show List.drop 2 ('✓' :: ' ' :: t) = t from rfl]
    have hnt : hasNN t = false := by
      rw [hasNN_cons_of_ne (by decide), hasNN_cons_of_ne (by decide)] at hnn
      exact hnn
    cases ht : t with
    | nil =>
      subst ht
      have := trimStable_getLast_not_space hst (a := ' ') rfl
      simp [pyIsSpace] at this
    | cons y w =>
      subst ht
      have hbl : ('✓' :: ' ' :: y :: w).getLast? = (y :: w).getLast? := by
        rw [List.getLast?_cons_cons, List.getLast?_cons_cons]
      obtain ⟨z, hz⟩ : ∃ z, (y :: w).getLast? = some z := by
        cases hm : (y :: w).getLast? with
        | none => exact absurd (List.getLast?_eq_none_iff.mp hm) (by simp)
        | some z => exact ⟨z, rfl⟩
      have hzs : pyIsSpace z = false :=
        trimStable_getLast_not_space hst (by rw [hbl]; exact hz)
      exact ⟨pyStrip_ne_nil_of_getLast hz hzs, pyStrip_idem _, hasNN_pyStrip hnt⟩
  · by_cases h2 : matchLetterDotSpace b = true
    · obtain ⟨c1, c3, t, rfl, hsp3⟩ := matchLetterDotSpace_shape h2
      rw [parseBlock, if_neg h1, if_pos h2]
      show GoodText (pyStrip (List.drop 3 (c1 :: '.' :: c3 :: t)))
      rw [show List.drop 3 (c1 :: '.' :: c3 :: t) = t from rfl]
      have hnt : hasNN t = false := by
        have hs : (c3 :: t) <:+ (c1 :: '.' :: c3 :: t) := ⟨[c1, '.'], rfl⟩
        have h3 : hasNN (c3 :: t) = false := hasNN_false_mono hs.isInfix hnn
        cases t with
        | nil => rfl
        | cons d r =>
          have hc3 : c3 ≠ '\n' ∨ d ≠ '\n' := by
            by_contra hcc
            push_neg at hcc
            rw [hasNN_cons_cons, hcc.1, hcc.2] at h3
            simp at h3
          rw [hasNN_cons_cons] at h3
          rcases Bool.or_eq_false_iff.mp h3 with ⟨-, h4⟩
          exact h4
      cases ht : t with
      | nil =>
        subst ht
        have h4 := trimStable_getLast_not_space hst
          (a := c3) (by rw [List.getLast?_cons_cons, List.getLast?_cons_cons]; rfl)
        rw [hsp3] at h4
        cases h4
      | cons y w =>
        subst ht
        obtain ⟨z, hz⟩ : ∃ z, (y :: w).getLast? = some z := by
          cases hm : (y :: w).getLast? with
          | none => exact absurd (List.getLast?_eq_none_iff.mp hm) (by simp)
          | some z => exact ⟨z, rfl⟩
        have hzs : pyIsSpace z = false := trimStable_getLast_not_space hst
          (by rw [List.getLast?_cons_cons, List.getLast?_cons_cons]; exact hz)
        exact ⟨pyStrip_ne_nil_of_getLast hz hzs, pyStrip_idem _, hasNN_pyStrip hnt⟩
    · rw [parseBlock, if_neg h1, if_neg h2]
      exact ⟨hne, hst, hnn⟩

lemma parse_good (v : PyVal) :
    ∀ c ∈ parse_formatted_choices_to_list v, GoodText c.text := by
  intro c hc
  match v with
  | .none => cases hc
  | .bool b => cases hc
  | .int n => cases hc
  | .list xs => cases hc
  | .dict kvs => cases hc
  | .str s =>
    simp only [parse_formatted_choices_to_list] at hc
    by_cases hs : pyStrip s = []
    · rw [if_pos hs] at hc; cases hc
    · rw [if_neg hs] at hc
      obtain ⟨raw, hraw, hcr⟩ := List.mem_filterMap.mp hc
      simp only [parseRaw] at hcr
      by_cases hb : pyStrip raw = []
      · rw [if_pos hb] at hcr; cases hcr
      · rw [if_neg hb] at hcr
        have hcb : parseBlock (pyStrip raw) = c := by injection hcr
        have hnnraw : hasNN raw = false := pySplitNN_parts hraw
        have hg := parseBlock_good hb (pyStrip_idem raw) (hasNN_pyStrip hnnraw)
        rw [hcb] at hg
        exact hg

/-! ### Totality and failure of the encoder -/

lemma fmtGo_replicate_error : ∀ (n i : Nat), 1 ≤ n → 1114048 ≤ i + n →
    fmtGo i (List.replicate n (choiceToPy ⟨['a'], false⟩)) = .error .valueError := by
  intro n
  induction n with
  | zero => intro i h1 h2; omega
  | succ m ih =>
    intro i h1 h2
    rw [List.replicate_succ]
    by_cases hi : 1114047 ≤ i
    · simp only [choiceToPy, fmtGo, choiceBlock, dictGet, pyTruthy, pyStrOf]
      rw [show pyChr (65 + i) = .error .valueError from by
        unfold pyChr; rw [if_neg (by omega)]]
      simp
    · have hm1 : 1 ≤ m := by omega
      simp only [choiceToPy, fmtGo, choiceBlock, dictGet, pyTruthy, pyStrOf]
      rw [show pyChr (65 + i) = .ok (Char.ofNat (65 + i)) from by
        unfold pyChr; rw [if_pos (by omega)]]
      rw [show (List.replicate m (choiceToPy ⟨['a'], false⟩))
          = List.replicate m (PyVal.dict [("text", PyVal.str ['a']),
              ("is_correct", PyVal.bool false)]) from rfl] at ih
      rw [ih (i + 1) hm1 (by omega)]
      simp

lemma format_error_of_fmtGo_error {xs : List PyVal} {e : PyErr}
    (h : fmtGo 0 xs = .error e) : format_choices (.list xs) = .error e := by
  simp only [format_choices]
  rw [h]

lemma fmtGo_ok_of_le : ∀ (l : List PyVal) (i : Nat), 65 + i + l.length ≤ 1114112 →
    ∃ s, fmtGo i l = .ok s := by
  intro l
  induction l with
  | nil => intro i h; exact ⟨[], rfl⟩
  | cons v rest ih =>
    intro i h
    simp only [List.length_cons] at h
    obtain ⟨r, hr⟩ := ih (i + 1) (by omega)
    match v with
    | .none => exact ⟨r, by rw [show fmtGo i (PyVal.none :: rest) = fmtGo (i + 1) rest from rfl, hr]⟩
    | .bool b => exact ⟨r, by rw [show fmtGo i (PyVal.bool b :: rest) = fmtGo (i + 1) rest from rfl, hr]⟩
    | .int n => exact ⟨r, by rw [show fmtGo i (PyVal.int n :: rest) = fmtGo (i + 1) rest from rfl, hr]⟩
    | .str s => exact ⟨r, by rw [show fmtGo i (PyVal.str s :: rest) = fmtGo (i + 1) rest from rfl, hr]⟩
    | .list xs => exact ⟨r, by rw [show fmtGo i (PyVal.list xs :: rest) = fmtGo (i + 1) rest from rfl, hr]⟩
    | .dict kvs =>
      have hcb : ∃ b, choiceBlock i kvs = .ok b := by
        unfold choiceBlock
        by_cases hc : pyTruthy (dictGet kvs "is_correct" (.bool false)) = true
        · rw [if_pos hc]; exact ⟨_, rfl⟩
        · rw [if_neg hc]
          rw [show pyChr (65 + i) = .ok (Char.ofNat (65 + i)) from by
            unfold pyChr; rw [if_pos (by omega)]]
          exact ⟨_, rfl⟩
      obtain ⟨b, hb⟩ := hcb
      refine ⟨b ++ '\n' :: '\n' :: r, ?_⟩
      simp only [fmtGo]
      rw [hb, hr]

/-! ### The PowerPath response mapping on proper choices -/

lemma powerpathResponse_toPy (e : PyVal) (c : Choice) :
    powerpathResponse e (choiceToPy c)
      = .ok { label := .str c.text, isCorrect := .bool c.is_correct,
              explanation := if c.is_correct && pyTruthy e then e else .none } := by
  simp [powerpathResponse, choiceToPy, dictGet, pyTruthy]

/-! ### Claim theorems -/

/-- C1, counterexample to the claim as stated: the choice list
`[{text: "a ", is_correct: false}]` satisfies all of the claim's
conditions on `text` (no `"\n\n"`, no `"✓ "` prefix, no `[A-Z]. ` prefix),
yet `parse_formatted_choices_to_list (format_choices L)` returns
`[{text: "a", is_correct: false}]`: the trailing space is stripped, so the
`text` values are not reproduced element-for-element. -/
theorem claim_C1_counterexample :
    (∀ c ∈ [Choice.mk ['a', ' '] false], hasNN c.text = false ∧
      startsWithCheckmark c.text = false ∧ matchLetterDotSpace c.text = false) ∧
    format_choices (choicesToPy [Choice.mk ['a', ' '] false]) = .ok "A. a".toList ∧
    parse_formatted_choices_to_list (.str "A. a".toList) = [Choice.mk "a".toList false] ∧
    [Choice.mk "a".toList false] ≠ [Choice.mk ['a', ' '] false] :=
  ⟨by decide, by rfl, by rfl, by decide⟩

/-- C1 (amended): decode-after-encode reproduces `L`'s `text` and
`is_correct` values element-for-element provided, in addition to the
claim's conditions (no `"\n\n"` in any `text`, no `"✓ "` prefix, no
`[A-Z].whitespace` prefix), every `text` is non-empty and free of leading
and trailing whitespace, and every incorrect choice sits at a position
below 26 (so that its `chr(65+idx)` letter is still in `A`-`Z`). -/
theorem claim_C1 (L : List Choice)
    (hclaim : ∀ c ∈ L, hasNN c.text = false ∧ startsWithCheckmark c.text = false ∧
      matchLetterDotSpace c.text = false)
    (hgood : ∀ c ∈ L, c.text ≠ [] ∧ pyStrip c.text = c.text)
    (hpos : ∀ j (hj : j < L.length), (L.get ⟨j, hj⟩).is_correct = false → j < 26) :
    ∃ s, format_choices (choicesToPy L) = .ok s ∧
      parse_formatted_choices_to_list (.str s) = L := by
  obtain ⟨h1, h2⟩ := roundtrip_core L
    (fun c hc => ⟨(hgood c hc).1, (hgood c hc).2, (hclaim c hc).1⟩) hpos
  exact ⟨_, h1, h2⟩

/-- Witness for C1 at the spec's own example list. -/
theorem claim_C1_witness :
    ∃ s, format_choices (choicesToPy
        [Choice.mk "x".toList false, Choice.mk "y".toList true]) = .ok s ∧
      parse_formatted_choices_to_list (.str s)
        = [Choice.mk "x".toList false, Choice.mk "y".toList true] :=
  claim_C1 _ (by decide) (by decide) (by decide)

/-- C2, counterexample to the claim as stated: a display text with 27
prefix-free blocks decodes to 27 incorrect choices; re-encoding gives the
27th block the prefix `chr(65+26) = "["`, which the decoder does not
recognise, so the third decode differs from the first. -/
theorem claim_C2_counterexample :
    parse_formatted_choices_to_list
        (.str ((List.replicate 26 ("a\n\n".toList)).flatten ++ ['a']))
      = List.replicate 27 (Choice.mk ['a'] false) ∧
    decodeEncodeDecode ((List.replicate 26 ("a\n\n".toList)).flatten ++ ['a'])
      = .ok (List.replicate 26 (Choice.mk ['a'] false)
          ++ [Choice.mk "[. a".toList false]) ∧
    List.replicate 26 (Choice.mk ['a'] false) ++ [Choice.mk "[. a".toList false]
      ≠ List.replicate 27 (Choice.mk ['a'] false) :=
  ⟨by decide, by rfl, by decide⟩

/-- C2 (amended): `decode(encode(decode(s))) = decode(s)` for every string
`s` such that every incorrect choice of `decode(s)` sits at a position
below 26 (in particular whenever `decode(s)` has at most 26 elements);
at position 26 and beyond the re-encoded letter leaves `A`-`Z` and the
identity fails. -/
theorem claim_C2 (s : PyStr)
    (hpos : ∀ j (hj : j < (parse_formatted_choices_to_list (.str s)).length),
      ((parse_formatted_choices_to_list (.str s)).get ⟨j, hj⟩).is_correct = false →
        j < 26) :
    decodeEncodeDecode s = .ok (parse_formatted_choices_to_list (.str s)) := by
  obtain ⟨h1, h2⟩ := roundtrip_core (parse_formatted_choices_to_list (.str s))
    (parse_good _) hpos
  unfold decodeEncodeDecode
  rw [h1]
  exact congrArg Except.ok h2

/-- Witness for C2 at the spec's example display text. -/
theorem claim_C2_witness :
    decodeEncodeDecode "A. x\n\n✓ y".toList
      = .ok (parse_formatted_choices_to_list (.str "A. x\n\n✓ y".toList)) :=
  claim_C2 _ (by decide)

/-- C3: the encoder's letter comes from the choice's absolute zero-based
position (`chr(65+idx)`), not from a count of incorrect choices: the
spec's example list encodes with `B` skipped, and in general the block of
an incorrect choice at position `idx` carries `chr(65+idx)`. -/
theorem claim_C3 :
    format_choices (.list [choiceToPy ⟨"w".toList, false⟩, choiceToPy ⟨"c".toList, true⟩,
      choiceToPy ⟨"w2".toList, false⟩]) = .ok "A. w\n\n✓ c\n\nC. w2".toList ∧
    ∀ (idx : Nat) (t : PyStr), 65 + idx ≤ 0x10FFFF →
      choiceBlock idx [("text", PyVal.str t), ("is_correct", PyVal.bool false)]
        = .ok (Char.ofNat (65 + idx) :: '.' :: ' ' :: t) := by
  constructor
  · rfl
  · intro idx t h
    simpa [renderBlock] using choiceBlock_toPy idx ⟨t, false⟩ (fun _ => h)

/-- Witness for C3's general clause at position 2 (`chr(67) = 'C'`). -/
theorem claim_C3_witness :
    choiceBlock 2 [("text", PyVal.str "w2".toList), ("is_correct", PyVal.bool false)]
      = .ok (Char.ofNat (65 + 2) :: '.' :: ' ' :: "w2".toList) :=
  claim_C3.2 2 "w2".toList (by norm_num)

/-- C4: on a display text that is a single block (no `"\n\n"`, not blank),
the decoder applies exactly the priority rule: checkmark prefix wins, then
the letter-dot-whitespace prefix, then the verbatim fallback; no block is
an error. -/
theorem claim_C4 (b : PyStr) (hnn : hasNN b = false) (hne : pyStrip b ≠ []) :
    parse_formatted_choices_to_list (.str b) =
      [if startsWithCheckmark (pyStrip b) then
          Choice.mk (pyStrip ((pyStrip b).drop 2)) true
        else if matchLetterDotSpace (pyStrip b) then
          Choice.mk (pyStrip ((pyStrip b).drop 3)) false
        else Choice.mk (pyStrip b) false] := by
  simp only [parse_formatted_choices_to_list]
  rw [if_neg hne]
  rw [pySplitNN_of_noNN (hasNN_pyStrip hnn)]
  simp only [List.filterMap_cons, List.filterMap_nil]
  simp only [parseRaw, pyStrip_idem]
  rw [if_neg hne]
  simp only [parseBlock]

/-- Witness for C4 on the spec's prefix-free example block. -/
theorem claim_C4_witness :
    parse_formatted_choices_to_list (.str "just some text".toList) =
      [if startsWithCheckmark (pyStrip "just some text".toList) then
          Choice.mk (pyStrip ((pyStrip "just some text".toList).drop 2)) true
        else if matchLetterDotSpace (pyStrip "just some text".toList) then
          Choice.mk (pyStrip ((pyStrip "just some text".toList).drop 3)) false
        else Choice.mk (pyStrip "just some text".toList) false] :=
  claim_C4 "just some text".toList (by decide) (by decide)

/-- C5: a non-dict element contributes no block and raises nothing (the
loop just moves to the next element, still advancing the enumerate
index), and the spec's mixed example encodes to `"A. a\n\n✓ b"`. -/
theorem claim_C5 :
    (∀ (i : Nat) (v : PyVal) (rest : List PyVal), v.isDict = false →
      fmtGo i (v :: rest) = fmtGo (i + 1) rest) ∧
    format_choices (.list [choiceToPy ⟨"a".toList, false⟩, .str "garbage".toList,
      choiceToPy ⟨"b".toList, true⟩]) = .ok "A. a\n\n✓ b".toList := by
  constructor
  · intro i v rest hv
    match v with
    | .none => rfl
    | .bool b => rfl
    | .int n => rfl
    | .str s => rfl
    | .list xs => rfl
    | .dict kvs => simp [PyVal.isDict] at hv
  · rfl

/-- Witness for C5's skip clause on the string element `"garbage"`. -/
theorem claim_C5_witness :
    fmtGo 0 [PyVal.str "garbage".toList] = fmtGo 1 [] :=
  claim_C5.1 0 (PyVal.str "garbage".toList) [] (by decide)

/-- C6: the decoder returns `[]`, without error, on any non-string input
and on any string whose strip is empty (so on `""` and on whitespace). -/
theorem claim_C6 :
    (∀ v : PyVal, v.isStr = false → parse_formatted_choices_to_list v = []) ∧
    (∀ s : PyStr, pyStrip s = [] → parse_formatted_choices_to_list (.str s) = []) := by
  constructor
  · intro v hv
    match v with
    | .none => rfl
    | .bool b => rfl
    | .int n => rfl
    | .list xs => rfl
    | .dict kvs => rfl
    | .str s => simp [PyVal.isStr] at hv
  · intro s hs
    simp [parse_formatted_choices_to_list, hs]

/-- Witness for C6 on a non-string, the empty string, and whitespace. -/
theorem claim_C6_witness :
    parse_formatted_choices_to_list (.int 5) = [] ∧
    parse_formatted_choices_to_list (.str "".toList) = [] ∧
    parse_formatted_choices_to_list (.str "   ".toList) = [] :=
  ⟨claim_C6.1 (.int 5) (by decide), claim_C6.2 "".toList (by decide),
   claim_C6.2 "   ".toList (by decide)⟩

/-- C7: the encoder returns `""` (without exception) on every non-list
input, and the empty list also encodes to `""`. -/
theorem claim_C7 :
    (∀ v : PyVal, v.isList = false → format_choices v = .ok []) ∧
    format_choices (.list []) = .ok [] := by
  constructor
  · intro v hv
    match v with
    | .none => rfl
    | .bool b => rfl
    | .int n => rfl
    | .str s => rfl
    | .dict kvs => rfl
    | .list xs => simp [PyVal.isList] at hv
  · rfl

/-- Witness for C7 on a string input (a sequence, but not a list). -/
theorem claim_C7_witness :
    format_choices (.str "x".toList) = .ok [] ∧ format_choices (.int 0) = .ok [] :=
  ⟨claim_C7.1 _ (by decide), claim_C7.1 _ (by decide)⟩

/-- C8, counterexample to the claim as stated: on a list of 1{,}114{,}048
incorrect choice dicts, the last iteration evaluates `chr(65 + 1114047)`,
which exceeds `0x10FFFF`, and Python raises `ValueError` — the encoder is
not total over every input. -/
theorem claim_C8_counterexample :
    format_choices (.list (List.replicate 1114048 (choiceToPy ⟨['a'], false⟩)))
      = .error .valueError :=
  format_error_of_fmtGo_error
    (fmtGo_replicate_error 1114048 0 (by norm_num) (by norm_num))

/-- C8 (amended): the decoder returns a list for every input, and the
encoder returns a string without exception for every non-list input and
for every list of at most 1{,}114{,}047 elements (so that `chr(65+idx)`
stays within Python's `0x10FFFF` limit); beyond that bound an incorrect
choice makes `chr` raise `ValueError`. -/
theorem claim_C8 :
    (∀ v : PyVal, ∃ cs, parse_formatted_choices_to_list v = cs) ∧
    (∀ l : List PyVal, l.length ≤ 1114047 → ∃ s, format_choices (.list l) = .ok s) ∧
    (∀ v : PyVal, v.isList = false → format_choices v = .ok []) := by
  refine ⟨fun v => ⟨_, rfl⟩, ?_, ?_⟩
  · intro l hl
    obtain ⟨s, hs⟩ := fmtGo_ok_of_le l 0 (by omega)
    refine ⟨pyStrip s, ?_⟩
    simp only [format_choices]
    rw [hs]
  · intro v hv
    match v with
    | .none => rfl
    | .bool b => rfl
    | .int n => rfl
    | .str s => rfl
    | .dict kvs => rfl
    | .list xs => simp [PyVal.isList] at hv

/-- Witness for C8 on small malformed inputs. -/
theorem claim_C8_witness :
    (∃ s, format_choices (.list [PyVal.int 3, choiceToPy ⟨"a".toList, true⟩]) = .ok s) ∧
    format_choices (.str "zz".toList) = .ok [] ∧
    (∃ cs, parse_formatted_choices_to_list (.bool true) = cs) :=
  ⟨claim_C8.2.1 _ (by decide), claim_C8.2.2 _ (by decide), claim_C8.1 _⟩

/-- C9: in the PowerPath response list built from a decoded choice list,
each response's `label` is the choice's `text` and its `isCorrect` the
choice's flag; a response from an incorrect choice always has `explanation`
null, and a non-null `explanation` occurs only on a correct choice and is
the question's shared explanation. -/
theorem claim_C9 (e : PyVal) (d : List Choice) (rs : List PPResponse)
    (h : powerpathResponses e (d.map choiceToPy) = .ok rs) :
    rs.length = d.length ∧
    ∀ j (hj : j < d.length) (hj2 : j < rs.length),
      (rs.get ⟨j, hj2⟩).label = .str (d.get ⟨j, hj⟩).text ∧
      (rs.get ⟨j, hj2⟩).isCorrect = .bool (d.get ⟨j, hj⟩).is_correct ∧
      ((d.get ⟨j, hj⟩).is_correct = false → (rs.get ⟨j, hj2⟩).explanation = .none) ∧
      ((rs.get ⟨j, hj2⟩).explanation ≠ .none →
        (d.get ⟨j, hj⟩).is_correct = true ∧ (rs.get ⟨j, hj2⟩).explanation = e) := by
  induction d generalizing rs with
  | nil =>
    simp only [powerpathResponses, List.map_nil, List.mapM_nil] at h
    have h' : (Except.ok [] : Except PyErr (List PPResponse)) = Except.ok rs := h
    injection h' with h2
    subst h2
    exact ⟨rfl, fun j hj => absurd hj (by simp)⟩
  | cons c d ih =>
    simp only [powerpathResponses, List.map_cons, List.mapM_cons] at h
    rw [powerpathResponse_toPy] at h
    cases hm : List.mapM (powerpathResponse e) (d.map choiceToPy) with
    | error err =>
      rw [show List.mapM (powerpathResponse e) (List.map choiceToPy d)
          = Except.error err from hm] at h
      exact Except.noConfusion h
    | ok bs =>
      rw [show List.mapM (powerpathResponse e) (List.map choiceToPy d)
          = Except.ok bs from hm] at h
      have h' : (Except.ok (PPResponse.mk (PyVal.str c.text) (PyVal.bool c.is_correct)
            (if c.is_correct && pyTruthy e then e else PyVal.none) :: bs)
          : Except PyErr (List PPResponse)) = Except.ok rs := h
      injection h' with h2
      subst h2
      obtain ⟨hlen, hfields⟩ := ih bs (by rw [powerpathResponses]; exact hm)
      refine ⟨by simp [hlen], ?_⟩
      intro j hj hj2
      cases j with
      | zero =>
        refine ⟨rfl, rfl, ?_, ?_⟩
        · intro hc
          have hc' : c.is_correct = false := hc
          show (if (c.is_correct && pyTruthy e) = true then e else PyVal.none) = PyVal.none
          rw [hc']
          rfl
        · intro hne
          have hexp : (if (c.is_correct && pyTruthy e) = true then e else PyVal.none)
              ≠ PyVal.none := hne
          by_cases hc : c.is_correct = true
          · by_cases hte : pyTruthy e = true
            · refine ⟨hc, ?_⟩
              show (if (c.is_correct && pyTruthy e) = true then e else PyVal.none) = e
              rw [hc, hte]
              rfl
            · have hte' : pyTruthy e = false := by
                revert hte; cases pyTruthy e <;> simp
              exact absurd (show (if (c.is_correct && pyTruthy e) = true then e
                  else PyVal.none) = PyVal.none by rw [hc, hte']; rfl) hexp
          · have hc' : c.is_correct = false := by
              revert hc; cases c.is_correct <;> simp
            exact absurd (show (if (c.is_correct && pyTruthy e) = true then e
                else PyVal.none) = PyVal.none by rw [hc']; rfl) hexp
      | succ j =>
        exact hfields j (by simpa using hj) (by simpa using hj2)

/-- Witness for C9 on a two-choice list with a shared explanation. -/
theorem claim_C9_witness :
    powerpathResponses (.str "why".toList)
        ([Choice.mk "a".toList true, Choice.mk "b".toList false].map choiceToPy)
      = .ok [⟨.str "a".toList, .bool true, .str "why".toList⟩,
             ⟨.str "b".toList, .bool false, .none⟩] ∧
    ([⟨.str "a".toList, .bool true, .str "why".toList⟩,
      ⟨.str "b".toList, .bool false, .none⟩] : List PPResponse).length
      = [Choice.mk "a".toList true, Choice.mk "b".toList false].length :=
  ⟨by rfl, (claim_C9 (.str "why".toList)
    [Choice.mk "a".toList true, Choice.mk "b".toList false] _ (by rfl)).1⟩

/-- C10: every choice produced by the decoder has a text that is
non-empty, contains no `"\n\n"`, and equals its own strip (no leading or
trailing whitespace), for every string input. -/
theorem claim_C10 (s : PyStr) (c : Choice)
    (hc : c ∈ parse_formatted_choices_to_list (.str s)) :
    c.text ≠ [] ∧ pyStrip c.text = c.text ∧ hasNN c.text = false :=
  parse_good _ c hc

/-- Witness for C10 on a decoded letter block. -/
theorem claim_C10_witness :
    Choice.mk "x".toList false ∈ parse_formatted_choices_to_list (.str "A. x".toList) ∧
    ((Choice.mk "x".toList false).text ≠ [] ∧
      pyStrip (Choice.mk "x".toList false).text = (Choice.mk "x".toList false).text ∧
      hasNN (Choice.mk "x".toList false).text = false) :=
  ⟨by decide, claim_C10 "A. x".toList _ (by decide)⟩

example : pyStrip "  a b  ".toList = "a b".toList := by decide
example : pySplitNN "a\n\nb\n\n\nc".toList = ["a".toList, "b".toList, "\nc".toList] := by decide
example :
    parse_formatted_choices_to_list (.str "A. x\n\n✓ y".toList)
      = [⟨"x".toList, false⟩, ⟨"y".toList, true⟩] := by decide
example :
    format_choices (choicesToPy [⟨"x".toList, false⟩, ⟨"y".toList, true⟩])
      = .ok "A. x\n\n✓ y".toList := by rfl
example :
    format_choices (.list [choiceToPy ⟨"w".toList, false⟩,
      choiceToPy ⟨"c".toList, true⟩, choiceToPy ⟨"w2".toList, false⟩])
      = .ok "A. w\n\n✓ c\n\nC. w2".toList := by rfl
example :
    parse_formatted_choices_to_list (.str "just some text".toList)
      = [⟨"just some text".toList, false⟩] := by decide
